import Mathlib

/-!
Shallow embedding of the QED shorthand-to-LaTeX compiler core:
`src/lib/command/CommandParser.js` (template matcher, recursive parser engine,
`parseCommandToLatex` entry point) and `src/lib/command/AutoComplete.js`
(`filterCommands` ranking engine).

Strings are modelled as `List Char`.  JavaScript index-based scanning is
modelled by structural recursion on the current suffix of the text: the JS
position `i` into `text` corresponds here to processing the suffix
`text.drop i`, and the JS `endIndex` of a match corresponds to the returned
remaining suffix.  The unbounded JS `while` loop together with the recursive
re-parse of captured values is modelled with an explicit fuel parameter
(`Option` result, `none` = fuel exhausted); any terminating run of the JS
code corresponds to a `some` result for every sufficiently large fuel.
-/

namespace QED

/-- ASCII fragment of the JavaScript whitespace class used by `String.trim`
and by the `\s` regex class (space, tab, line feed, carriage return,
vertical tab, form feed). -/
def isJsSpace (c : Char) : Bool :=
  c = ' ' || c = '\t' || c = '\n' || c = '\r' || c = '\x0b' || c = '\x0c'

/-- JavaScript `String.prototype.trim` (ASCII): drop whitespace from both
ends. -/
def jsTrim (s : List Char) : List Char :=
  ((s.dropWhile isJsSpace).reverse.dropWhile isJsSpace).reverse

/-- JavaScript `pattern.split('{}')` from `matchTemplate`: split on each
non-overlapping occurrence of the two-character substring `{}`, left to
right.  The result is always non-empty. -/
def splitPat : List Char → List (List Char)
  | [] => [[]]
  | '{' :: '}' :: rest => [] :: splitPat rest
  | c :: rest =>
    match splitPat rest with
    | [] => [[c]]
    | s :: ss => (c :: s) :: ss

/-- The placeholder-capture `while` loop of `matchTemplate`
(CommandParser.js lines 42-65), recursing on the current suffix.
Returns the captured characters and the remaining suffix.
`(` increments the parenthesis depth; `)` at depth 0 is not consumed and
stops the capture; `)` at positive depth decrements the depth; after the
depth update, if the depth is 0 and the (non-empty) next literal pattern
segment occurs at the current position, the capture stops. -/
def capture (nextPart : List Char) : List Char → Nat → List Char × List Char
  | [], _ => ([], [])
  | c :: rest, depth =>
    if c = ')' ∧ depth = 0 then ([], c :: rest)
    else
      let depth' := if c = '(' then depth + 1 else if c = ')' then depth - 1 else depth
      if depth' = 0 ∧ nextPart ≠ [] ∧ nextPart.isPrefixOf (c :: rest) then
        ([], c :: rest)
      else
        let r := capture nextPart rest depth'
        (c :: r.1, r.2)

/-- The part-by-part loop of `matchTemplate` (CommandParser.js lines 19-69):
match each literal segment verbatim, and between consecutive segments skip
leading spaces and capture a placeholder value (trimmed).  Returns the
captured values and the remaining suffix (JS `endIndex`). -/
def matchParts : List (List Char) → List Char → Option (List (List Char) × List Char)
  | [], s => some ([], s)
  | [part], s =>
    if part.isPrefixOf s then some ([], s.drop part.length) else none
  | part :: next :: rest, s =>
    if part.isPrefixOf s then
      let s1 := (s.drop part.length).dropWhile (fun c => c = ' ')
      let vr := capture next s1 0
      match matchParts (next :: rest) vr.2 with
      | some (vs, r) => some (jsTrim vr.1 :: vs, r)
      | none => none
    else none

/-- `matchTemplate(text, i, pattern)` of CommandParser.js, with the suffix
`text.drop i` passed directly.  `none` is the JS `{matched: false}`. -/
def matchTemplate (s : List Char) (pattern : List Char) : Option (List (List Char) × List Char) :=
  matchParts (splitPat pattern) s

/-- A compiled `{ pattern, symbol }` pair pushed onto `cmds` in
`parseCommandToLatex`. -/
structure CmdPat where
  pattern : List Char
  symbol : List Char
deriving DecidableEq, Repr

/-- A compiled `{ pattern, template }` pair pushed onto `templates` in
`parseCommandToLatex`. -/
structure TmplPat where
  pattern : List Char
  template : List Char
deriving DecidableEq, Repr

/-- Word-boundary character class of `parseRecursive`
(CommandParser.js line 130): the regex `[\s,\^_{}()\[\]:.]`. -/
def isBoundaryChar (c : Char) : Bool :=
  isJsSpace c || c = ',' || c = '^' || c = '_' || c = '{' || c = '}' ||
    c = '(' || c = ')' || c = '[' || c = ']' || c = ':' || c = '.'

/-- Boundary test on the text following a candidate literal match:
end-of-input, or a boundary character. -/
def boundaryOk : List Char → Bool
  | [] => true
  | c :: _ => isBoundaryChar c

/-- The per-command test of `parseRecursive` (lines 123-132): the slice at
the current position equals the pattern and the following character is a
word boundary (or end of input). -/
def cmdMatches (c : CmdPat) (s : List Char) : Bool :=
  c.pattern.isPrefixOf s && boundaryOk (s.drop c.pattern.length)

/-- The `for (const cmd of cmds)` loop of `parseRecursive`: first matching
command wins; returns its symbol and the remaining suffix. -/
def firstCommand : List CmdPat → List Char → Option (List Char × List Char)
  | [], _ => none
  | c :: cs, s =>
    if cmdMatches c s then some (c.symbol, s.drop c.pattern.length)
    else firstCommand cs s

/-- The `for (const tmpl of templates)` loop of `parseRecursive`: first
pattern for which `matchTemplate` succeeds wins; returns the output
template, the captured values and the remaining suffix. -/
def firstTemplate : List TmplPat → List Char → Option (List Char × List (List Char) × List Char)
  | [], _ => none
  | t :: ts, s =>
    match matchTemplate s t.pattern with
    | some (vs, r) => some (t.template, vs, r)
    | none => firstTemplate ts s

/-- Decimal digits, with structural fuel (any fuel above the number of
digits gives the digits; `natDigits` always supplies enough). -/
def natDigitsAux : Nat → Nat → List Char
  | 0, _ => []
  | fuel + 1, n =>
    if n < 10 then [Char.ofNat (48 + n)]
    else natDigitsAux fuel (n / 10) ++ [Char.ofNat (48 + n % 10)]

/-- Decimal digits of a natural number (for the JS template literal
interpolation of the placeholder index in braces). -/
def natDigits (n : Nat) : List Char := natDigitsAux (n + 1) n

/-- The placeholder token `{idx}` built by the JS template literal in
`output.replace` (CommandParser.js line 110). -/
def placeholderTok (idx : Nat) : List Char :=
  '{' :: (natDigits idx ++ ['}'])

/-- JavaScript `String.prototype.replace` with a plain-string pattern:
replace only the first occurrence (leftmost), or insert at the front when
the pattern is empty. -/
def replaceFirst (pat repl : List Char) : List Char → List Char
  | [] => if pat = [] then repl else []
  | c :: rest =>
    if pat.isPrefixOf (c :: rest) then repl ++ (c :: rest).drop pat.length
    else c :: replaceFirst pat repl rest

/-- JavaScript `String.prototype.replace` with a global regex matching one
literal character: replace every occurrence of that character. -/
def replaceAllChar (c : Char) (repl : List Char) : List Char → List Char
  | [] => []
  | x :: rest => (if x = c then repl else [x]) ++ replaceAllChar c repl rest

/-- Scanner for `replaceAllSub`, with structural fuel; each step consumes
at least one character of `s`, so fuel `s.length` always suffices. -/
def replaceAllSubAux (pat repl : List Char) : Nat → List Char → List Char
  | 0, s => s
  | fuel + 1, s =>
    match s with
    | [] => []
    | c :: rest =>
      if pat ≠ [] ∧ pat.isPrefixOf (c :: rest) then
        repl ++ replaceAllSubAux pat repl fuel ((c :: rest).drop pat.length)
      else c :: replaceAllSubAux pat repl fuel rest

/-- JavaScript `String.prototype.replace` with a global regex matching a
literal multi-character pattern: replace every non-overlapping occurrence,
left to right. -/
def replaceAllSub (pat repl : List Char) (s : List Char) : List Char :=
  replaceAllSubAux pat repl s.length s

/-- Whether `pat` occurs as a contiguous substring of `s`. -/
def containsSub (pat : List Char) : List Char → Bool
  | [] => pat.isEmpty
  | c :: rest => pat.isPrefixOf (c :: rest) || containsSub pat rest

/-- The visible placeholder glyph substituted for empty captured values
(CommandParser.js line 109). -/
def squareGlyph : List Char := '\\' :: ('s' :: 'q' :: 'u' :: 'a' :: 'r' :: 'e' :: [])

/-- The sequential `output.replace` calls of the `forEach` in
`parseRecursive` (line 110): substitute the already-parsed final values
into the output template, index by index, each replacing the first
occurrence of its placeholder token in the evolving output. -/
def substPlaceholders (output : List Char) (finals : List (List Char)) (idx : Nat) : List Char :=
  match finals with
  | [] => output
  | v :: vs => substPlaceholders (replaceFirst (placeholderTok idx) v output) vs (idx + 1)

/-- The `matchResult.values.forEach` body of `parseRecursive`
(CommandParser.js lines 106-111), parameterised by the recursive parser
`f` applied to each captured value: substitute the visible placeholder
glyph for values that parse to the empty string. -/
def parseValuesWith (f : List Char → Option (List Char)) :
    List (List Char) → Option (List (List Char))
  | [] => some []
  | v :: vs =>
    match f v with
    | some pv =>
      match parseValuesWith f vs with
      | some rest => some ((if pv = [] then squareGlyph else pv) :: rest)
      | none => none
    | none => none

/-- `parseRecursive(text, cmds, templates)` of CommandParser.js, on the
current suffix, with fuel.  Each iteration of the JS scan loop and each
level of recursive re-parse of captured values uses one unit of fuel;
`none` means the fuel ran out (the JS code would still be running). -/
def parseRecursive (cmds : List CmdPat) (tmpls : List TmplPat) : Nat → List Char → Option (List Char)
  | 0 => fun _ => none
  | fuel + 1 => fun text =>
    if text = [] then some []
    else
      match firstTemplate tmpls text with
      | some (tout, vals, rem) =>
        match parseValuesWith (parseRecursive cmds tmpls fuel) vals with
        | some finals =>
          match parseRecursive cmds tmpls fuel rem with
          | some restOut => some (substPlaceholders tout finals 0 ++ restOut)
          | none => none
        | none => none
      | none =>
        match firstCommand cmds text with
        | some (sym, rem) =>
          match parseRecursive cmds tmpls fuel rem with
          | some restOut => some (sym ++ restOut)
          | none => none
        | none =>
          match text with
          | [] => some []
          | c :: rest =>
            match parseRecursive cmds tmpls fuel rest with
            | some restOut => some (c :: restOut)
            | none => none

/-- A dictionary entry of CommandList.js: ordered alias list, output
symbol, description. -/
structure CommandEntry where
  command : List (List Char)
  symbol : List Char
  description : List Char
deriving DecidableEq, Repr

/-- A template dictionary entry of CommandList.js.  The JS field accepts a
single string or an array of strings; the `Array.isArray` normalisation in
`parseCommandToLatex` is modelled by always storing the list form. -/
structure TemplateEntry where
  patterns : List (List Char)
  template : List Char
  description : List Char
deriving DecidableEq, Repr

/-- The sentinel token substituted for a literal input `{`
(CommandParser.js line 167). -/
def lbraceTok : List Char :=
  '_' :: '_' :: '_' :: 'L' :: 'B' :: 'R' :: 'A' :: 'C' :: 'E' :: '_' :: '_' :: '_' :: []

/-- The sentinel token substituted for a literal input `}`
(CommandParser.js line 168). -/
def rbraceTok : List Char :=
  '_' :: '_' :: '_' :: 'R' :: 'B' :: 'R' :: 'A' :: 'C' :: 'E' :: '_' :: '_' :: '_' :: []

/-- The brace pre-processing of `parseCommandToLatex` (lines 169-171):
replace every `{` with the left sentinel token, then every `}` with the
right sentinel token. -/
def braceEscape (s : List Char) : List Char :=
  replaceAllChar '}' rbraceTok (replaceAllChar '{' lbraceTok s)

/-- Building the flat `cmds` array of `parseCommandToLatex`
(lines 174-179): one entry per alias, in declaration order. -/
def buildCmds (commands : List CommandEntry) : List CmdPat :=
  (commands.map (fun cmd => cmd.command.map (fun a => CmdPat.mk a cmd.symbol))).flatten

/-- Building the flat `templates` array of `parseCommandToLatex`
(lines 183-191): one entry per pattern string, in declaration order. -/
def buildTemplates (templateCommands : List TemplateEntry) : List TmplPat :=
  (templateCommands.map (fun t => t.patterns.map (fun p => TmplPat.mk p t.template))).flatten

/-- The length-descending comparison used by both `sort` calls of
`parseCommandToLatex` (lines 194-195); JS `Array.prototype.sort` is stable,
hence `mergeSort`. -/
def sortCmds (l : List CmdPat) : List CmdPat :=
  l.mergeSort (fun a b => b.pattern.length ≤ a.pattern.length)

/-- Stable length-descending sort of the compiled template list
(CommandParser.js line 195). -/
def sortTemplates (l : List TmplPat) : List TmplPat :=
  l.mergeSort (fun a b => b.pattern.length ≤ a.pattern.length)

/-- The post-processing of `parseCommandToLatex` (lines 200-206): restore
both brace sentinels to escaped braces, then expand each comma to a comma
followed by a thin-space directive. -/
def postProcess (result : List Char) : List Char :=
  replaceAllChar ',' (',' :: '\\' :: ';' :: [])
    (replaceAllSub rbraceTok ('\\' :: '}' :: [])
      (replaceAllSub lbraceTok ('\\' :: '{' :: []) result))

/-- `parseCommandToLatex(text, commands, templateCommands)` of
CommandParser.js, with an explicit fuel for the recursive parser. -/
def parseCommandToLatex (fuel : Nat) (text : List Char) (commands : List CommandEntry)
    (templateCommands : List TemplateEntry) : Option (List Char) :=
  let trimmedText := jsTrim text
  if trimmedText = [] then some []
  else
    let processedText := braceEscape trimmedText
    let cmds := sortCmds (buildCmds commands)
    let templates := sortTemplates (buildTemplates templateCommands)
    match parseRecursive cmds templates fuel processedText with
    | some result => some (postProcess result)
    | none => none

/-- A ranked autocomplete candidate (AutoComplete.js).  The two score
fields are `none` on the all-commands branches, where the JS objects do
not carry them, and `some` on collected matches. -/
structure RankedCandidate where
  command : CommandEntry
  displayAlias : List Char
  matchIndex : Nat
  matchQuality : Option Nat
  aliasLength : Option Nat
deriving DecidableEq, Repr

/-- ASCII fragment of JavaScript `String.prototype.toLowerCase`. -/
def jsToLowerChar (c : Char) : Char :=
  if 'A' ≤ c ∧ c ≤ 'Z' then Char.ofNat (c.toNat + 32) else c

/-- ASCII lowercase of a string. -/
def jsToLower (s : List Char) : List Char := s.map jsToLowerChar

/-- The inner `cmd.command.forEach((alias, aliasIndex) => ...)` of
`filterCommands` (AutoComplete.js lines 43-56): collect every alias that
equals the typed prefix (quality 0) or starts with it (quality 1). -/
def collectFromAliases (cmd : CommandEntry) (lowerTyped : List Char) :
    List (List Char) → Nat → List RankedCandidate
  | [], _ => []
  | a :: rest, i =>
    let lowerAlias := jsToLower a
    (if lowerAlias = lowerTyped ∨ lowerTyped.isPrefixOf lowerAlias then
      [RankedCandidate.mk cmd a i (some (if lowerAlias = lowerTyped then 0 else 1))
        (some a.length)]
     else []) ++ collectFromAliases cmd lowerTyped rest (i + 1)

/-- The outer `commands.forEach` of `filterCommands`: all collected
matches, in dictionary order, aliases in declaration order. -/
def collectMatches (commands : List CommandEntry) (lowerTyped : List Char) :
    List RankedCandidate :=
  (commands.map (fun cmd => collectFromAliases cmd lowerTyped cmd.command 0)).flatten

/-- The sort comparator of `filterCommands` (AutoComplete.js lines 60-64)
as a boolean total preorder: quality first, then alias index, then alias
length.  It is only applied to collected matches, whose score fields are
populated. -/
def rankLE (a b : RankedCandidate) : Bool :=
  let qa := a.matchQuality.getD 0
  let qb := b.matchQuality.getD 0
  let la := a.aliasLength.getD 0
  let lb := b.aliasLength.getD 0
  qa < qb || (qa = qb && (a.matchIndex < b.matchIndex ||
    (a.matchIndex = b.matchIndex && la ≤ lb)))

/-- The `seen`-set filter of `filterCommands` (lines 67-73): keep the first
candidate for each not-yet-seen command symbol. -/
def dedupeBySymbol : List RankedCandidate → List (List Char) → List RankedCandidate
  | [], _ => []
  | m :: ms, seen =>
    if m.command.symbol ∈ seen then dedupeBySymbol ms seen
    else m :: dedupeBySymbol ms (m.command.symbol :: seen)

/-- `filterCommands(commands, typedText)` of AutoComplete.js.  A non-string
`typedText` (JS `undefined`/`null`) is modelled as `none`. -/
def filterCommands (commands : List CommandEntry) (typedText : Option (List Char)) :
    List RankedCandidate :=
  match typedText with
  | none => commands.map (fun cmd => RankedCandidate.mk cmd (cmd.command.headD []) 0 none none)
  | some typed =>
    if jsTrim typed = [] then
      commands.map (fun cmd => RankedCandidate.mk cmd (cmd.command.headD []) 0 none none)
    else
      let lowerTyped := jsTrim (jsToLower typed)
      if lowerTyped = [] then
        commands.map (fun cmd => RankedCandidate.mk cmd (cmd.command.headD []) 0 none none)
      else
        dedupeBySymbol ((collectMatches commands lowerTyped).mergeSort rankLE) []

/-- Stable insertion of `a` into a list sorted by the total preorder `le`:
walk past exactly the elements strictly before `a`.  Used to evaluate the
stable-sort model of `Array.prototype.sort` on concrete inputs. -/
def insertSorted (le : α → α → Bool) (a : α) : List α → List α
  | [] => [a]
  | b :: l => if le b a && !(le a b) then b :: insertSorted le a l else a :: b :: l

/-- Stable insertion sort; provably equal to `List.mergeSort` for
transitive total `le`. -/
def insortAll (le : α → α → Bool) : List α → List α
  | [] => []
  | x :: xs => insertSorted le x (insortAll le xs)

/- Concrete dictionary entries (from CommandList.js) used in claim
instances. -/

/-- The `forall` entry of the command dictionary. -/
def forallEntry : CommandEntry :=
  CommandEntry.mk ["forall".data, "for all".data] "\\forall".data "for all".data

/-- The real-numbers entry of the command dictionary. -/
def realEntry : CommandEntry :=
  CommandEntry.mk ["RR".data, "reals".data] "\\mathbb{R}".data "real numbers".data

/-- The element-of entry of the command dictionary. -/
def inEntry : CommandEntry :=
  CommandEntry.mk ["in".data, "an element of".data] "\\in".data "an element of".data

/-- The integers entry of the command dictionary. -/
def intEntry : CommandEntry :=
  CommandEntry.mk ["ZZ".data, "int".data, "integers".data] "\\mathbb{Z}".data "integers".data

/-- The modulo template entry of the template dictionary. -/
def modEntry : TemplateEntry :=
  TemplateEntry.mk ["mod {}".data, "(mod {})".data, "modulo {}".data]
    "\\!\\pmod{{{0}}}".data "modulo class".data

/-- Fuel-indexed divergence: the parser yields no result at any fuel,
i.e. the corresponding JS loop or recursion never terminates. -/
def divergesOn (cmds : List CmdPat) (tmpls : List TmplPat) (text : List Char) : Prop :=
  ∀ fuel, parseRecursive cmds tmpls fuel text = none

/-- Characters that cannot occur in a sentinel token nor in an escaped
brace: anything except underscore and the token letters. -/
def safeChar (c : Char) : Bool :=
  !(c = '_' || c = 'L' || c = 'B' || c = 'R' || c = 'A' || c = 'C' || c = 'E')

/-- Per-character view of the brace pre-processing. -/
def brExpand (c : Char) : List Char :=
  if c = '{' then lbraceTok else if c = '}' then rbraceTok else [c]

/-- State of the output after the first sentinel-restoring pass: left
sentinels already restored to escaped braces, right sentinels untouched. -/
def midEscape : List Char → List Char
  | [] => []
  | c :: rest =>
    (if c = '{' then '\\' :: '{' :: [] else if c = '}' then rbraceTok else [c]) ++
      midEscape rest

/-- Modelled from the spec: the intended visible effect of the brace
round-trip — each literal `{` of the input appears in the output as the
escaped brace `\{`, each literal `}` as `\}`, all other characters
unchanged. -/
def escapeBraces : List Char → List Char
  | [] => []
  | c :: rest =>
    (if c = '{' then '\\' :: '{' :: [] else if c = '}' then '\\' :: '}' :: [] else [c]) ++
      escapeBraces rest

/- ------------------------------------------------------------------ -/
/- General lemmas about the embedding.                                 -/
/- ------------------------------------------------------------------ -/

theorem parseRecursive_zero (cmds tmpls) (text : List Char) :
    parseRecursive cmds tmpls 0 text = none := rfl

theorem parseRecursive_succ (cmds tmpls) (fuel : Nat) (text : List Char) :
    parseRecursive cmds tmpls (fuel + 1) text =
      if text = [] then some []
      else
        match firstTemplate tmpls text with
        | some (tout, vals, rem) =>
          match parseValuesWith (parseRecursive cmds tmpls fuel) vals with
          | some finals =>
            match parseRecursive cmds tmpls fuel rem with
            | some restOut => some (substPlaceholders tout finals 0 ++ restOut)
            | none => none
          | none => none
        | none =>
          match firstCommand cmds text with
          | some (sym, rem) =>
            match parseRecursive cmds tmpls fuel rem with
            | some restOut => some (sym ++ restOut)
            | none => none
          | none =>
            match text with
            | [] => some []
            | c :: rest =>
              match parseRecursive cmds tmpls fuel rest with
              | some restOut => some (c :: restOut)
              | none => none := rfl

theorem firstTemplate_none (ts : List TmplPat) (s : List Char)
    (h : ∀ t ∈ ts, matchTemplate s t.pattern = none) : firstTemplate ts s = none := by
  induction ts with
  | nil => rfl
  | cons t ts ih =>
    have ht := h t (by simp)
    simp only [firstTemplate, ht]
    exact ih (fun t' ht' => h t' (by simp [ht']))

theorem firstCommand_none (cs : List CmdPat) (s : List Char)
    (h : ∀ c ∈ cs, cmdMatches c s = false) : firstCommand cs s = none := by
  induction cs with
  | nil => rfl
  | cons c cs ih =>
    have hc := h c (by simp)
    simp only [firstCommand, hc, Bool.false_eq_true, if_false]
    exact ih (fun c' hc' => h c' (by simp [hc']))

/-- When no template and no command matches at any scan position, the
parser copies the text through unchanged (with fuel one more than the
length, one unit per scanned character). -/
theorem parseRecursive_passthrough (cmds : List CmdPat) (tmpls : List TmplPat) :
    ∀ text : List Char,
      (∀ n, n < text.length → firstTemplate tmpls (text.drop n) = none ∧
        firstCommand cmds (text.drop n) = none) →
      parseRecursive cmds tmpls (text.length + 1) text = some text := by
  intro text
  induction text with
  | nil => intro _; rfl
  | cons c rest ih =>
    intro h
    have h0 := h 0 (by simp)
    simp only [List.drop_zero] at h0
    have hrest := ih (fun n hn => by
      have := h (n + 1) (by simpa using Nat.succ_lt_succ hn)
      simpa using this)
    rw [List.length_cons, parseRecursive_succ]
    simp only [h0.1, h0.2, reduceCtorEq, if_false, hrest]

theorem mem_sortCmds {a : CmdPat} {l : List CmdPat} : a ∈ sortCmds l ↔ a ∈ l :=
  List.mem_mergeSort

theorem mem_sortTemplates {a : TmplPat} {l : List TmplPat} : a ∈ sortTemplates l ↔ a ∈ l :=
  List.mem_mergeSort

theorem replaceAllChar_of_not_mem {c : Char} {repl s} (h : c ∉ s) :
    replaceAllChar c repl s = s := by
  induction s with
  | nil => rfl
  | cons x rest ih =>
    have hx : ¬ x = c := by rintro rfl; exact h (by simp)
    simp only [replaceAllChar, if_neg hx, List.singleton_append, List.cons.injEq, true_and]
    exact ih (fun hm => h (by simp [hm]))

theorem containsSub_cons_false {pat : List Char} {c rest}
    (h : containsSub pat (c :: rest) = false) :
    pat.isPrefixOf (c :: rest) = false ∧ containsSub pat rest = false := by
  simpa [containsSub, Bool.or_eq_false_iff] using h

theorem replaceAllSubAux_id {pat repl : List Char} :
    ∀ (fuel : Nat) (s : List Char), containsSub pat s = false →
      replaceAllSubAux pat repl fuel s = s := by
  intro fuel
  induction fuel with
  | zero => intro s _; rfl
  | succ n ih =>
    intro s hs
    match s with
    | [] => rfl
    | c :: rest =>
      obtain ⟨h1, h2⟩ := containsSub_cons_false hs
      have : ¬ (pat ≠ [] ∧ pat.isPrefixOf (c :: rest)) := by
        rintro ⟨-, hp⟩; rw [h1] at hp; cases hp
      simp only [replaceAllSubAux, if_neg this, List.cons.injEq, true_and]
      exact ih rest h2

theorem replaceAllSub_id {pat repl s : List Char} (h : containsSub pat s = false) :
    replaceAllSub pat repl s = s :=
  replaceAllSubAux_id s.length s h

theorem braceEscape_id {s : List Char} (hl : '{' ∉ s) (hr : '}' ∉ s) :
    braceEscape s = s := by
  unfold braceEscape
  rw [replaceAllChar_of_not_mem hl, replaceAllChar_of_not_mem hr]

theorem dropWhile_isPrefixFix {p : Char → Bool} {a t : List Char}
    (ha : List.dropWhile p a = a) (ht : t <+: a) : List.dropWhile p t = t := by
  match t with
  | [] => rfl
  | c :: t' =>
    obtain ⟨r, hr⟩ := ht
    have hc : p c = false := by
      by_contra hpc
      have hpc' : p c = true := by
        cases hx : p c with
        | false => exact absurd hx hpc
        | true => rfl
      rw [← hr] at ha
      rw [List.cons_append, List.dropWhile_cons_of_pos hpc'] at ha
      have := congrArg List.length ha
      have hle := ((t' ++ r).dropWhile_sublist p).length_le
      simp only [List.length_cons] at this
      omega
    rw [List.dropWhile_cons_of_neg (by simp [hc])]

theorem jsTrim_eq_rdropWhile (s : List Char) :
    jsTrim s = List.rdropWhile isJsSpace (List.dropWhile isJsSpace s) := rfl

theorem jsTrim_idem (s : List Char) : jsTrim (jsTrim s) = jsTrim s := by
  rw [jsTrim_eq_rdropWhile, jsTrim_eq_rdropWhile]
  have h1 : List.dropWhile isJsSpace (List.dropWhile isJsSpace s) =
      List.dropWhile isJsSpace s := List.dropWhile_idempotent _ _
  have h2 : List.dropWhile isJsSpace
      (List.rdropWhile isJsSpace (List.dropWhile isJsSpace s)) =
      List.rdropWhile isJsSpace (List.dropWhile isJsSpace s) :=
    dropWhile_isPrefixFix h1 (List.rdropWhile_prefix _ _)
  rw [h2, List.rdropWhile_idempotent]

/- ------------------------------------------------------------------ -/
/- Claims.                                                             -/
/- ------------------------------------------------------------------ -/

/-- Claim C1 (counterexample): on input " {" with empty dictionaries, no
alias and no template can match, yet the output is the escaped brace, not
the comma-processed input: trimming and brace escaping also change the
text. -/
theorem claim1_counterexample :
    parseCommandToLatex 20 " \x7b".data [] [] = some ('\\' :: '{' :: []) ∧
    some ('\\' :: '{' :: []) ≠
      some (replaceAllChar ',' (',' :: '\\' :: ';' :: []) " \x7b".data) := by
  constructor
  · simp only [parseCommandToLatex, sortCmds, sortTemplates, buildCmds, buildTemplates,
      List.map_nil, List.flatten_nil, List.mergeSort_nil]
    decide
  · decide

/-- Claim C1 (amended): for ASCII input equal to its own trim, containing
no brace character and no occurrence of a sentinel token, such that no
compiled template pattern and no compiled command alias matches at any
scan position, `parseCommandToLatex` returns the input unchanged except
that every comma becomes a comma followed by a thin space. -/
theorem claim1_amended (cmds : List CommandEntry) (tcs : List TemplateEntry) (text : List Char)
    (htrim : jsTrim text = text)
    (hlb : '{' ∉ text) (hrb : '}' ∉ text)
    (hsl : containsSub lbraceTok text = false) (hsr : containsSub rbraceTok text = false)
    (hmatch : ∀ n, n < text.length →
      (∀ t ∈ buildTemplates tcs, matchTemplate (text.drop n) t.pattern = none) ∧
      (∀ c ∈ buildCmds cmds, cmdMatches c (text.drop n) = false)) :
    parseCommandToLatex (text.length + 1) text cmds tcs =
      some (replaceAllChar ',' (',' :: '\\' :: ';' :: []) text) := by
  simp only [parseCommandToLatex, htrim]
  by_cases hnil : text = []
  · subst hnil; rfl
  · rw [if_neg hnil, braceEscape_id hlb hrb]
    have hpt : parseRecursive (sortCmds (buildCmds cmds)) (sortTemplates (buildTemplates tcs))
        (text.length + 1) text = some text := by
      apply parseRecursive_passthrough
      intro n hn
      refine ⟨firstTemplate_none _ _ (fun t ht => ?_), firstCommand_none _ _ (fun c hc => ?_)⟩
      · exact (hmatch n hn).1 t (mem_sortTemplates.mp ht)
      · exact (hmatch n hn).2 c (mem_sortCmds.mp hc)
    rw [hpt]
    simp only [postProcess, replaceAllSub_id hsl, replaceAllSub_id hsr]

/-- Claim C1 (witness): the amended theorem applied to the concrete input
"x,y" with empty dictionaries. -/
theorem claim1_witness :
    jsTrim "x,y".data = "x,y".data ∧
    parseCommandToLatex ("x,y".data.length + 1) "x,y".data [] [] =
      some (replaceAllChar ',' (',' :: '\\' :: ';' :: []) "x,y".data) :=
  ⟨by decide, claim1_amended [] [] "x,y".data (by decide) (by decide) (by decide)
    (by decide) (by decide) (by decide)⟩

/-- Claim C9: `parseCommandToLatex` is invariant under pre-trimming its
input, and whitespace-only input yields the empty string. -/
theorem claim9_trim_invariant (fuel : Nat) (text : List Char) (cmds : List CommandEntry)
    (tcs : List TemplateEntry) :
    parseCommandToLatex fuel text cmds tcs = parseCommandToLatex fuel (jsTrim text) cmds tcs ∧
    (jsTrim text = [] → parseCommandToLatex fuel text cmds tcs = some []) := by
  constructor
  · simp only [parseCommandToLatex, jsTrim_idem]
  · intro h
    simp only [parseCommandToLatex, h, if_true]

/-- Claim C9 (witness): whitespace-only input parses to the empty string. -/
theorem claim9_witness : parseCommandToLatex 5 (' ' :: '\t' :: []) [] [] = some [] :=
  (claim9_trim_invariant 5 (' ' :: '\t' :: []) [] []).2 (by decide)

/-- Claim C10: a non-string or whitespace-only `typedText` makes
`filterCommands` return every command in dictionary order with its first
alias and match index 0. -/
theorem claim10_default (commands : List CommandEntry) (typed : Option (List Char))
    (h : typed = none ∨ ∃ s, typed = some s ∧ jsTrim s = []) :
    filterCommands commands typed =
      commands.map (fun cmd => RankedCandidate.mk cmd (cmd.command.headD []) 0 none none) := by
  rcases h with h | ⟨s, rfl, hs⟩
  · subst h; rfl
  · simp only [filterCommands, hs, if_true]

/-- Claim C4: a literal alias matches exactly when the text slice equals
the alias and the next character is end-of-input or a boundary character
(whitespace, comma, or one of the structural characters); consequently
"forall" parses to its symbol, "RR" matches inside "RR^2", and "forall67"
passes through entirely unchanged. -/
theorem claim4_word_boundary :
    (∀ (c : CmdPat) (s : List Char),
      cmdMatches c s = true ↔
        ∃ after, s = c.pattern ++ after ∧
          (after = [] ∨ ∃ d rest, after = d :: rest ∧ isBoundaryChar d = true)) ∧
    parseCommandToLatex 20 "forall".data [forallEntry] [] = some "\\forall".data ∧
    parseCommandToLatex 20 "RR^2".data [realEntry] [] =
      some ("\\mathbb{R}^2".data) ∧
    parseCommandToLatex 20 "forall67".data [forallEntry] [] = some "forall67".data := by
  refine ⟨fun c s => ?_, ?_, ?_, ?_⟩
  · unfold cmdMatches
    rw [Bool.and_eq_true, List.isPrefixOf_iff_prefix]
    constructor
    · rintro ⟨⟨after, rfl⟩, hb⟩
      refine ⟨after, rfl, ?_⟩
      rw [List.drop_left] at hb
      cases after with
      | nil => exact Or.inl rfl
      | cons d rest => exact Or.inr ⟨d, rest, rfl, hb⟩
    · rintro ⟨after, rfl, h⟩
      refine ⟨⟨after, rfl⟩, ?_⟩
      rw [List.drop_left]
      rcases h with rfl | ⟨d, rest, rfl, hb⟩
      · rfl
      · exact hb
  · have h : sortCmds (buildCmds [forallEntry]) =
        [CmdPat.mk "for all".data "\\forall".data, CmdPat.mk "forall".data "\\forall".data] := by
      simp [sortCmds, buildCmds, forallEntry, List.mergeSort]
    simp only [parseCommandToLatex, sortTemplates, buildTemplates, List.map_nil,
      List.flatten_nil, List.mergeSort_nil, h]
    decide
  · have h : sortCmds (buildCmds [realEntry]) =
        [CmdPat.mk "reals".data "\\mathbb{R}".data, CmdPat.mk "RR".data "\\mathbb{R}".data] := by
      simp [sortCmds, buildCmds, realEntry, List.mergeSort]
    simp only [parseCommandToLatex, sortTemplates, buildTemplates, List.map_nil,
      List.flatten_nil, List.mergeSort_nil, h]
    decide
  · have h : sortCmds (buildCmds [forallEntry]) =
        [CmdPat.mk "for all".data "\\forall".data, CmdPat.mk "forall".data "\\forall".data] := by
      simp [sortCmds, buildCmds, forallEntry, List.mergeSort]
    simp only [parseCommandToLatex, sortTemplates, buildTemplates, List.map_nil,
      List.flatten_nil, List.mergeSort_nil, h]
    decide

/-- Claim C10 (witness): applied to `none` (a non-string argument) and a
one-entry dictionary. -/
theorem claim10_witness :
    filterCommands [CommandEntry.mk ["in".data] "\\in".data "elem".data] none =
      [RankedCandidate.mk (CommandEntry.mk ["in".data] "\\in".data "elem".data) "in".data
        0 none none] := by
  rw [claim10_default _ none (Or.inl rfl)]
  rfl

theorem capture_append : ∀ (np s : List Char) (d : Nat),
    (capture np s d).1 ++ (capture np s d).2 = s := by
  intro np s
  induction s with
  | nil => intro d; rfl
  | cons c rest ih =>
    intro d
    unfold capture
    by_cases h1 : c = ')' ∧ d = 0
    · rw [if_pos h1]
      rfl
    · rw [if_neg h1]
      by_cases h2 : (if c = '(' then d + 1 else if c = ')' then d - 1 else d) = 0 ∧
          np ≠ [] ∧ np.isPrefixOf (c :: rest)
      · rw [if_pos h2]
        rfl
      · rw [if_neg h2]
        simp only [List.cons_append, List.cons.injEq, true_and]
        exact ih _

/-- Claim C3 (counterexample): the first captured value for
"if (x and y) then z" against "if {} then {}" is "(x and y)" with the
grouping parentheses included, not "x and y". -/
theorem claim3_counterexample :
    matchTemplate "if (x and y) then z".data "if {} then {}".data =
      some (["(x and y)".data, "z".data], []) ∧
    "(x and y)".data ≠ "x and y".data := by
  constructor
  · decide
  · decide

/-- Claim C3 (amended): placeholder capture maintains a parenthesis depth
counter — capture always consumes a prefix of the suffix; a `)` at depth 0
is not consumed and ends the capture; a `(` always increments the depth
and continues; a `)` at positive depth decrements the depth (stopping only
if, after the decrement, the depth is 0 and the non-empty next literal
segment matches here); any other character at depth 0 stops the capture
when the non-empty next literal segment matches at the current position;
and on "if (x and y) then z" with template "if {} then {}" the first
placeholder captures the whole group "(x and y)" (parentheses included)
rather than stopping inside the parentheses. -/
theorem claim3_amended :
    (∀ (np s : List Char) (d : Nat), (capture np s d).1 ++ (capture np s d).2 = s) ∧
    (∀ (np s : List Char), capture np (')' :: s) 0 = ([], ')' :: s)) ∧
    (∀ (np s : List Char) (d : Nat),
      capture np ('(' :: s) d =
        ('(' :: (capture np s (d + 1)).1, (capture np s (d + 1)).2)) ∧
    (∀ (np s : List Char) (d : Nat), d ≠ 0 →
      ¬ (d - 1 = 0 ∧ np ≠ [] ∧ np.isPrefixOf (')' :: s)) →
      capture np (')' :: s) d =
        (')' :: (capture np s (d - 1)).1, (capture np s (d - 1)).2)) ∧
    (∀ (np : List Char) (c : Char) (s : List Char), c ≠ '(' → c ≠ ')' →
      np ≠ [] → np.isPrefixOf (c :: s) →
      capture np (c :: s) 0 = ([], c :: s)) ∧
    matchTemplate "if (x and y) then z".data "if {} then {}".data =
      some (["(x and y)".data, "z".data], []) := by
  refine ⟨capture_append, fun np s => ?_, fun np s d => ?_, fun np s d hd hstop => ?_,
    fun np c s hc1 hc2 hne hpre => ?_, by decide⟩
  · conv_lhs => rw [capture]
    rw [if_pos ⟨rfl, rfl⟩]
  · conv_lhs => rw [capture]
    have h1 : ¬ ('(' = ')' ∧ d = 0) := by simp
    rw [if_neg h1, if_pos rfl]
    have h2 : ¬ (d + 1 = 0 ∧ np ≠ [] ∧ np.isPrefixOf ('(' :: s)) := by
      rintro ⟨h, -⟩; omega
    rw [if_neg h2]
  · conv_lhs => rw [capture]
    have h1 : ¬ (')' = ')' ∧ d = 0) := by
      rintro ⟨-, h⟩; exact hd h
    rw [if_neg h1]
    have hne : ¬ (')' : Char) = '(' := by decide
    rw [if_neg hne, if_pos rfl, if_neg hstop]
  · conv_lhs => rw [capture]
    have h1 : ¬ (c = ')' ∧ (0 : Nat) = 0) := by
      rintro ⟨h, -⟩; exact hc2 h
    rw [if_neg h1, if_neg hc1, if_neg hc2]
    rw [if_pos ⟨rfl, hne, hpre⟩]

/-- Claim C3 (witness): the decrement equation applied at a concrete
closing parenthesis with depth 1. -/
theorem claim3_witness : capture "q".data (')' :: []) 1 = (')' :: [], []) := by
  have h := claim3_amended.2.2.2.1 "q".data [] 1 (by decide) (by decide)
  simpa using h

/-- Claim C8: a captured value that recursively parses to the empty string
is substituted by the visible glyph `\square`, while non-empty parsed
values are substituted as-is; concretely, "mod )x" renders a square in the
modulo slot and "mod 5" renders the 5. -/
theorem claim8_square_glyph :
    (∀ (f : List Char → Option (List Char)) (v : List Char) (vs : List (List Char))
      (out : List (List Char)), f v = some [] → parseValuesWith f (v :: vs) = some out →
      out.headD [] = squareGlyph) ∧
    (∀ (f : List Char → Option (List Char)) (v pv : List Char) (vs : List (List Char))
      (out : List (List Char)), f v = some pv → pv ≠ [] →
      parseValuesWith f (v :: vs) = some out → out.headD [] = pv) ∧
    parseCommandToLatex 20 "mod )x".data [] [modEntry] =
      some ("\\!\\pmod\x7b\x7b\\square\x7d\x7d)x".data) ∧
    parseCommandToLatex 20 "mod 5".data [] [modEntry] =
      some ("\\!\\pmod{{5}}".data) := by
  refine ⟨fun f v vs out hv hout => ?_, fun f v pv vs out hv hpv hout => ?_, ?_, ?_⟩
  · simp only [parseValuesWith, hv] at hout
    cases hrest : parseValuesWith f vs with
    | none => rw [hrest] at hout; cases hout
    | some rest =>
      rw [hrest] at hout
      simp only [if_pos rfl] at hout
      cases hout
      rfl
  · simp only [parseValuesWith, hv] at hout
    cases hrest : parseValuesWith f vs with
    | none => rw [hrest] at hout; cases hout
    | some rest =>
      rw [hrest] at hout
      rw [if_neg hpv] at hout
      cases hout
      rfl
  · have h : sortTemplates (buildTemplates [modEntry]) =
        [TmplPat.mk "modulo {}".data "\\!\\pmod{{{0}}}".data,
         TmplPat.mk "(mod {})".data "\\!\\pmod{{{0}}}".data,
         TmplPat.mk "mod {}".data "\\!\\pmod{{{0}}}".data] := by
      simp [sortTemplates, buildTemplates, modEntry, List.mergeSort]
    simp only [parseCommandToLatex, sortCmds, buildCmds, List.map_nil, List.flatten_nil,
      List.mergeSort_nil, h]
    decide
  · have h : sortTemplates (buildTemplates [modEntry]) =
        [TmplPat.mk "modulo {}".data "\\!\\pmod{{{0}}}".data,
         TmplPat.mk "(mod {})".data "\\!\\pmod{{{0}}}".data,
         TmplPat.mk "mod {}".data "\\!\\pmod{{{0}}}".data] := by
      simp [sortTemplates, buildTemplates, modEntry, List.mergeSort]
    simp only [parseCommandToLatex, sortCmds, buildCmds, List.map_nil, List.flatten_nil,
      List.mergeSort_nil, h]
    decide

/-- Claim C8 (witness): the empty-value clause applied to a concrete
single-value list. -/
theorem claim8_witness :
    ([squareGlyph].headD [] = squareGlyph) :=
  claim8_square_glyph.1 (fun _ => some []) ['x'] [] [squareGlyph] rfl rfl

theorem insertSorted_middle (le : α → α → Bool) (a : α) :
    ∀ (l₁ l₂ : List α), (∀ b ∈ l₁, le b a = true ∧ le a b = false) →
      (∀ c ∈ l₂.head?, le a c = true) →
      insertSorted le a (l₁ ++ l₂) = l₁ ++ a :: l₂ := by
  intro l₁
  induction l₁ with
  | nil =>
    intro l₂ _ h2
    cases l₂ with
    | nil => rfl
    | cons c l₂' =>
      have hc := h2 c (by simp)
      simp only [List.nil_append, insertSorted, hc, Bool.not_true, Bool.and_false,
        Bool.false_eq_true, if_false]
  | cons b l₁' ih =>
    intro l₂ h1 h2
    have hb := h1 b (by simp)
    simp only [List.cons_append, insertSorted, hb.1, hb.2, Bool.not_false, Bool.and_true,
      if_true, List.cons.injEq, true_and]
    exact ih l₂ (fun x hx => h1 x (by simp [hx])) h2

theorem mergeSort_eq_insortAll (le : α → α → Bool)
    (htrans : ∀ (a b c : α), le a b → le b c → le a c)
    (htotal : ∀ (a b : α), le a b || le b a) :
    ∀ l : List α, l.mergeSort le = insortAll le l := by
  intro l
  induction l with
  | nil => simp [insortAll]
  | cons a l ih =>
    obtain ⟨l₁, l₂, h1, h2, h3⟩ := List.mergeSort_cons htrans htotal a l
    rw [h1, insortAll, ← ih, h2]
    have hall : ∀ b ∈ l₁, le b a = true ∧ le a b = false := by
      intro b hb
      have h3b := h3 b hb
      have hab : le a b = false := by
        cases hx : le a b with
        | false => rfl
        | true => rw [hx] at h3b; cases h3b
      have := htotal a b
      rw [hab] at this
      simp only [Bool.false_or] at this
      exact ⟨this, hab⟩
    have hsorted := List.sorted_mergeSort htrans htotal (a :: l)
    rw [h1] at hsorted
    have hl2 : ∀ c ∈ l₂.head?, le a c = true := by
      intro c hc
      have hpa := (List.pairwise_append.mp hsorted).2.1
      cases l₂ with
      | nil => simp at hc
      | cons d l₂' =>
        simp only [List.head?_cons, Option.mem_def, Option.some.injEq] at hc
        subst hc
        exact List.rel_of_pairwise_cons hpa (by simp)
    exact (insertSorted_middle le a l₁ l₂ hall hl2).symm

/-- The length-descending comparison on compiled command patterns. -/
def cmdLenLE (a b : CmdPat) : Bool := b.pattern.length ≤ a.pattern.length

/-- The length-descending comparison on compiled template patterns. -/
def tmplLenLE (a b : TmplPat) : Bool := b.pattern.length ≤ a.pattern.length

theorem cmdLenLE_trans : ∀ (a b c : CmdPat), cmdLenLE a b → cmdLenLE b c → cmdLenLE a c := by
  intro a b c
  simp only [cmdLenLE, decide_eq_true_eq]
  omega

theorem cmdLenLE_total : ∀ (a b : CmdPat), cmdLenLE a b || cmdLenLE b a := by
  intro a b
  simp only [cmdLenLE, Bool.or_eq_true, decide_eq_true_eq]
  omega

theorem tmplLenLE_trans : ∀ (a b c : TmplPat), tmplLenLE a b → tmplLenLE b c → tmplLenLE a c := by
  intro a b c
  simp only [tmplLenLE, decide_eq_true_eq]
  omega

theorem tmplLenLE_total : ∀ (a b : TmplPat), tmplLenLE a b || tmplLenLE b a := by
  intro a b
  simp only [tmplLenLE, Bool.or_eq_true, decide_eq_true_eq]
  omega

theorem sortCmds_eq_insortAll (l : List CmdPat) : sortCmds l = insortAll cmdLenLE l :=
  mergeSort_eq_insortAll cmdLenLE cmdLenLE_trans cmdLenLE_total l

theorem sortTemplates_eq_insortAll (l : List TmplPat) : sortTemplates l = insortAll tmplLenLE l :=
  mergeSort_eq_insortAll tmplLenLE tmplLenLE_trans tmplLenLE_total l

/-- Claim C2: the compiled command and template lists are sorted by
pattern length descending; ties keep declaration order (any sublist of
equal-length patterns survives as a sublist of the sorted list); and the
longest matching alias wins: with aliases "in" and "an element of" for the
same symbol, input "an element of" parses as the single long alias. -/
theorem claim2_sorted_greedy :
    (∀ l : List CmdPat,
      (sortCmds l).Pairwise (fun a b => b.pattern.length ≤ a.pattern.length) ∧
      List.Perm (sortCmds l) l) ∧
    (∀ l : List TmplPat,
      (sortTemplates l).Pairwise (fun a b => b.pattern.length ≤ a.pattern.length) ∧
      List.Perm (sortTemplates l) l) ∧
    (∀ (l c : List CmdPat), c.Sublist l →
      c.Pairwise (fun a b => a.pattern.length = b.pattern.length) → c.Sublist (sortCmds l)) ∧
    (∀ (l c : List TmplPat), c.Sublist l →
      c.Pairwise (fun a b => a.pattern.length = b.pattern.length) → c.Sublist (sortTemplates l)) ∧
    parseCommandToLatex 20 "an element of".data [inEntry] [] = some "\\in".data := by
  refine ⟨fun l => ⟨?_, ?_⟩, fun l => ⟨?_, ?_⟩, fun l c hsub hties => ?_, fun l c hsub hties => ?_, ?_⟩
  · have := List.sorted_mergeSort cmdLenLE_trans cmdLenLE_total l
    exact this.imp (by intro a b h; simpa [cmdLenLE] using h)
  · exact List.mergeSort_perm l _
  · have := List.sorted_mergeSort tmplLenLE_trans tmplLenLE_total l
    exact this.imp (by intro a b h; simpa [tmplLenLE] using h)
  · exact List.mergeSort_perm l _
  · exact List.sublist_mergeSort cmdLenLE_trans cmdLenLE_total
      (hties.imp (by intro a b h; simp [cmdLenLE, h])) hsub
  · exact List.sublist_mergeSort tmplLenLE_trans tmplLenLE_total
      (hties.imp (by intro a b h; simp [tmplLenLE, h])) hsub
  · have h : sortCmds (buildCmds [inEntry]) =
        [CmdPat.mk "an element of".data "\\in".data, CmdPat.mk "in".data "\\in".data] := by
      rw [sortCmds_eq_insortAll]
      decide
    simp only [parseCommandToLatex, sortTemplates, buildTemplates, List.map_nil,
      List.flatten_nil, List.mergeSort_nil, h]
    decide

/-- Claim C2 (witness): stability applied to a concrete two-element tied
sublist. -/
theorem claim2_witness :
    ([CmdPat.mk "ab".data "x".data, CmdPat.mk "cd".data "y".data] :
      List CmdPat).Sublist
      (sortCmds [CmdPat.mk "ab".data "x".data, CmdPat.mk "cd".data "y".data]) :=
  claim2_sorted_greedy.2.2.1 _ _ (List.Sublist.refl _) (by decide)

theorem capture_len (np s : List Char) (d : Nat) :
    (capture np s d).1.length + (capture np s d).2.length = s.length := by
  have h := congrArg List.length (capture_append np s d)
  simpa [List.length_append] using h

theorem jsTrim_length_le (s : List Char) : (jsTrim s).length ≤ s.length := by
  have h1 := (s.dropWhile_sublist isJsSpace).length_le
  have h2 := ((s.dropWhile isJsSpace).reverse.dropWhile_sublist isJsSpace).length_le
  simp only [jsTrim, List.length_reverse] at *
  omega

theorem matchParts_rem_le :
    ∀ (parts : List (List Char)) (s vs_r_s : List Char) (vs : List (List Char)),
      matchParts parts s = some (vs, vs_r_s) →
      vs_r_s.length + (parts.map List.length).sum ≤ s.length := by
  intro parts
  induction parts with
  | nil =>
    intro s r vs h
    simp only [matchParts, Option.some.injEq, Prod.mk.injEq] at h
    obtain ⟨-, rfl⟩ := h
    simp
  | cons part rest ih =>
    intro s r vs h
    cases rest with
    | nil =>
      simp only [matchParts] at h
      by_cases hp : part.isPrefixOf s
      · rw [if_pos hp] at h
        simp only [Option.some.injEq, Prod.mk.injEq] at h
        obtain ⟨-, rfl⟩ := h
        have hpl : part.length ≤ s.length := (List.isPrefixOf_iff_prefix.mp hp).length_le
        simp only [List.map_cons, List.map_nil, List.sum_cons, List.sum_nil,
          List.length_drop]
        omega
      · rw [if_neg hp] at h
        cases h
    | cons next rest2 =>
      simp only [matchParts] at h
      by_cases hp : part.isPrefixOf s
      · rw [if_pos hp] at h
        cases hm : matchParts (next :: rest2)
            (capture next ((s.drop part.length).dropWhile (fun c => c = ' ')) 0).2 with
        | none => rw [hm] at h; cases h
        | some p =>
          obtain ⟨vs2, r2⟩ := p
          rw [hm] at h
          simp only [Option.some.injEq, Prod.mk.injEq] at h
          obtain ⟨-, rfl⟩ := h
          have hrec := ih _ _ _ hm
          have hcap := capture_len next ((s.drop part.length).dropWhile (fun c => c = ' ')) 0
          have hdw := (((s.drop part.length)).dropWhile_sublist (fun c => c = ' ')).length_le
          have hpl : part.length ≤ s.length := (List.isPrefixOf_iff_prefix.mp hp).length_le
          simp only [List.map_cons, List.sum_cons, List.length_drop] at *
          omega
      · rw [if_neg hp] at h
        cases h

theorem matchParts_val_le :
    ∀ (parts : List (List Char)) (s r : List Char) (vs : List (List Char)),
      matchParts parts s = some (vs, r) →
      ∀ v ∈ vs, v.length + (parts.map List.length).sum ≤ s.length := by
  intro parts
  induction parts with
  | nil =>
    intro s r vs h v hv
    simp only [matchParts, Option.some.injEq, Prod.mk.injEq] at h
    obtain ⟨rfl, -⟩ := h
    cases hv
  | cons part rest ih =>
    intro s r vs h v hv
    cases rest with
    | nil =>
      simp only [matchParts] at h
      by_cases hp : part.isPrefixOf s
      · rw [if_pos hp] at h
        simp only [Option.some.injEq, Prod.mk.injEq] at h
        obtain ⟨rfl, -⟩ := h
        cases hv
      · rw [if_neg hp] at h
        cases h
    | cons next rest2 =>
      simp only [matchParts] at h
      by_cases hp : part.isPrefixOf s
      · rw [if_pos hp] at h
        cases hm : matchParts (next :: rest2)
            (capture next ((s.drop part.length).dropWhile (fun c => c = ' ')) 0).2 with
        | none => rw [hm] at h; cases h
        | some p =>
          obtain ⟨vs2, r2⟩ := p
          rw [hm] at h
          simp only [Option.some.injEq, Prod.mk.injEq] at h
          obtain ⟨hvs, -⟩ := h
          subst hvs
          have hrem := matchParts_rem_le _ _ _ _ hm
          have hcap := capture_len next ((s.drop part.length).dropWhile (fun c => c = ' ')) 0
          have hdw := ((s.drop part.length).dropWhile_sublist (fun c => c = ' ')).length_le
          have hpl : part.length ≤ s.length := (List.isPrefixOf_iff_prefix.mp hp).length_le
          rcases List.mem_cons.mp hv with rfl | hv2
          · have htr := jsTrim_length_le
              (capture next ((s.drop part.length).dropWhile (fun c => c = ' ')) 0).1
            simp only [List.map_cons, List.sum_cons, List.length_drop] at *
            omega
          · have hvle := ih _ _ _ hm v hv2
            simp only [List.map_cons, List.sum_cons, List.length_drop] at *
            omega
      · rw [if_neg hp] at h
        cases h


theorem firstTemplate_spec :
    ∀ (ts : List TmplPat) (s tout r : List Char) (vs : List (List Char)),
      firstTemplate ts s = some (tout, vs, r) →
      ∃ t ∈ ts, matchTemplate s t.pattern = some (vs, r) ∧ tout = t.template := by
  intro ts
  induction ts with
  | nil => intro s tout r vs h; cases h
  | cons t ts ih =>
    intro s tout r vs h
    simp only [firstTemplate] at h
    cases hm : matchTemplate s t.pattern with
    | some p =>
      obtain ⟨vs2, r2⟩ := p
      rw [hm] at h
      simp only [Option.some.injEq, Prod.mk.injEq] at h
      obtain ⟨h1, h2, h3⟩ := h
      subst h1; subst h2; subst h3
      exact ⟨t, by simp, hm, rfl⟩
    | none =>
      rw [hm] at h
      obtain ⟨t2, ht2, hmt, hout⟩ := ih s tout r vs h
      exact ⟨t2, by simp [ht2], hmt, hout⟩

theorem firstCommand_spec :
    ∀ (cs : List CmdPat) (s sym r : List Char),
      firstCommand cs s = some (sym, r) →
      ∃ c ∈ cs, cmdMatches c s = true ∧ sym = c.symbol ∧ r = s.drop c.pattern.length := by
  intro cs
  induction cs with
  | nil => intro s sym r h; cases h
  | cons c cs ih =>
    intro s sym r h
    simp only [firstCommand] at h
    by_cases hc : cmdMatches c s
    · rw [if_pos hc] at h
      simp only [Option.some.injEq, Prod.mk.injEq] at h
      exact ⟨c, by simp, hc, h.1.symm, h.2.symm⟩
    · rw [if_neg hc] at h
      obtain ⟨c2, hc2, hm, hsym, hr⟩ := ih s sym r h
      exact ⟨c2, by simp [hc2], hm, hsym, hr⟩

theorem parseRecursive_total (cmds : List CmdPat) (tmpls : List TmplPat)
    (hc : ∀ c ∈ cmds, c.pattern ≠ [])
    (ht : ∀ t ∈ tmpls, ∃ p ∈ splitPat t.pattern, p ≠ []) :
    ∀ fuel : Nat,
      (∀ text : List Char, text.length < fuel →
        (parseRecursive cmds tmpls fuel text).isSome = true) ∧
      (∀ vs : List (List Char), (∀ v ∈ vs, v.length < fuel) →
        (parseValuesWith (parseRecursive cmds tmpls fuel) vs).isSome = true) := by
  intro fuel
  induction fuel with
  | zero =>
    constructor
    · intro text htl; omega
    · intro vs hvs
      cases vs with
      | nil => rfl
      | cons v vs2 => exact absurd (hvs v (by simp)) (by omega)
  | succ fuel ih =>
    have h1 : ∀ text : List Char, text.length < fuel + 1 →
        (parseRecursive cmds tmpls (fuel + 1) text).isSome = true := by
      intro text htl
      rw [parseRecursive_succ]
      by_cases hnil : text = []
      · rw [if_pos hnil]; rfl
      · rw [if_neg hnil]
        have htpos : 1 ≤ text.length := by
          cases text with
          | nil => exact absurd rfl hnil
          | cons c r => simp
        cases hft : firstTemplate tmpls text with
        | some p =>
          obtain ⟨tout, vs, rem⟩ := p
          obtain ⟨t, htm, hmt, -⟩ := firstTemplate_spec tmpls text tout rem vs hft
          obtain ⟨pne, hpne, hne⟩ := ht t htm
          have hsum : 1 ≤ ((splitPat t.pattern).map List.length).sum := by
            have h0 : 1 ≤ pne.length := by
              cases pne with
              | nil => exact absurd rfl hne
              | cons a b => simp
            have hmem : pne.length ∈ (splitPat t.pattern).map List.length :=
              List.mem_map_of_mem _ hpne
            calc 1 ≤ pne.length := h0
              _ ≤ ((splitPat t.pattern).map List.length).sum :=
                List.single_le_sum (fun x _ => Nat.zero_le x) _ hmem
          have hrem := matchParts_rem_le _ _ _ _ hmt
          have hvals := matchParts_val_le _ _ _ _ hmt
          have hpv : (parseValuesWith (parseRecursive cmds tmpls fuel) vs).isSome = true := by
            apply ih.2
            intro v hv
            have := hvals v hv
            omega
          cases hpvs : parseValuesWith (parseRecursive cmds tmpls fuel) vs with
          | none => rw [hpvs] at hpv; cases hpv
          | some finals =>
            have hrr : (parseRecursive cmds tmpls fuel rem).isSome = true := by
              apply ih.1
              omega
            cases hrec : parseRecursive cmds tmpls fuel rem with
            | none => rw [hrec] at hrr; cases hrr
            | some restOut => simp only [hpvs, hrec, Option.isSome_some]
        | none =>
          cases hfc : firstCommand cmds text with
          | some p =>
            obtain ⟨sym, rem⟩ := p
            obtain ⟨c, hcm, hmatch, -, hrem⟩ := firstCommand_spec cmds text sym rem hfc
            have hcne := hc c hcm
            have hcl : 1 ≤ c.pattern.length := by
              cases hx : c.pattern with
              | nil => exact absurd hx hcne
              | cons a b => simp [hx]
            have hple : c.pattern.length ≤ text.length := by
              have hm2 := hmatch
              simp only [cmdMatches, Bool.and_eq_true] at hm2
              exact (List.isPrefixOf_iff_prefix.mp hm2.1).length_le
            have hrr : (parseRecursive cmds tmpls fuel rem).isSome = true := by
              apply ih.1
              rw [hrem]
              simp only [List.length_drop]
              omega
            cases hrec : parseRecursive cmds tmpls fuel rem with
            | none => rw [hrec] at hrr; cases hrr
            | some restOut => simp only [hrec, Option.isSome_some]
          | none =>
            cases text with
            | nil => exact absurd rfl hnil
            | cons ch rest =>
              have hrr : (parseRecursive cmds tmpls fuel rest).isSome = true := by
                apply ih.1
                simp only [List.length_cons] at htl
                omega
              cases hrec : parseRecursive cmds tmpls fuel rest with
              | none => rw [hrec] at hrr; cases hrr
              | some restOut => simp only [hrec, Option.isSome_some]
    refine ⟨h1, ?_⟩
    intro vs hvs
    induction vs with
    | nil => rfl
    | cons v vs2 ihv =>
      have hv := h1 v (hvs v (by simp))
      cases hpv : parseRecursive cmds tmpls (fuel + 1) v with
      | none => rw [hpv] at hv; cases hv
      | some pv =>
        have hrest := ihv (fun x hx => hvs x (by simp [hx]))
        simp only [parseValuesWith, hpv]
        cases hpr : parseValuesWith (parseRecursive cmds tmpls (fuel + 1)) vs2 with
        | none => rw [hpr] at hrest; cases hrest
        | some rest => simp only [hpr, Option.isSome_some]


/-- Claim C7 (counterexample): with the degenerate template pattern "{}"
(a bare placeholder, no literal segment) the scan loop of `parseRecursive`
makes no progress on input ")": the match consumes zero characters, so the
parser diverges — it returns no result at any fuel. -/
theorem claim7_counterexample :
    divergesOn [] [TmplPat.mk ('{' :: '}' :: []) ('X' :: [])] (')' :: []) := by
  intro fuel
  induction fuel with
  | zero => rfl
  | succ n ih =>
    rw [parseRecursive_succ]
    rw [if_neg (by decide)]
    have hft : firstTemplate [TmplPat.mk ('{' :: '}' :: []) ('X' :: [])] (')' :: []) =
        some ('X' :: [], [[]], ')' :: []) := by decide
    rw [hft]
    cases n with
    | zero => rfl
    | succ m =>
      have hpv : parseValuesWith (parseRecursive [] [TmplPat.mk ('{' :: '}' :: [])
          ('X' :: [])] (m + 1)) [[]] = some [squareGlyph] := rfl
      simp only [hpv, ih]

/-- Claim C7 (amended): provided every command pattern is non-empty and
every template pattern has at least one non-empty literal segment, the
parser terminates with fuel `input length + 1`: every scan iteration and
every recursive re-parse strictly shrinks the remaining text, so the scan
index strictly increases and the recursion depth is bounded by the input
length.  Without these dictionary conditions the claim is false. -/
theorem claim7_amended (cmds : List CmdPat) (tmpls : List TmplPat)
    (hc : ∀ c ∈ cmds, c.pattern ≠ [])
    (ht : ∀ t ∈ tmpls, ∃ p ∈ splitPat t.pattern, p ≠ []) (text : List Char) :
    (parseRecursive cmds tmpls (text.length + 1) text).isSome = true :=
  (parseRecursive_total cmds tmpls hc ht (text.length + 1)).1 text (by omega)

/-- Claim C7 (witness): the amended theorem at a concrete dictionary and
input. -/
theorem claim7_witness :
    (parseRecursive [CmdPat.mk "in".data "\\in".data]
      [TmplPat.mk "mod {}".data "\\!\\pmod{{{0}}}".data]
      ("x in S mod 3".data.length + 1) "x in S mod 3".data).isSome = true :=
  claim7_amended [CmdPat.mk "in".data "\\in".data]
    [TmplPat.mk "mod {}".data "\\!\\pmod{{{0}}}".data]
    (by decide) (by decide) "x in S mod 3".data

theorem rankLE_total : ∀ a b : RankedCandidate, (rankLE a b || rankLE b a) = true := by
  intro a b
  simp only [rankLE, Bool.or_eq_true, Bool.and_eq_true, decide_eq_true_eq]
  omega

theorem rankLE_trans : ∀ a b c : RankedCandidate,
    rankLE a b → rankLE b c → rankLE a c := by
  intro a b c
  simp only [rankLE, Bool.or_eq_true, Bool.and_eq_true, decide_eq_true_eq]
  omega

theorem rankLE_refl (a : RankedCandidate) : rankLE a a = true := by
  have := rankLE_total a a
  simpa using this

theorem collectFromAliases_mem (cmd : CommandEntry) (lt : List Char) :
    ∀ (aliases : List (List Char)) (i0 : Nat) (rc : RankedCandidate),
      rc ∈ collectFromAliases cmd lt aliases i0 ↔
        ∃ j a, aliases[j]? = some a ∧
          (jsToLower a = lt ∨ lt.isPrefixOf (jsToLower a)) ∧
          rc = RankedCandidate.mk cmd a (i0 + j)
            (some (if jsToLower a = lt then 0 else 1)) (some a.length) := by
  intro aliases
  induction aliases with
  | nil =>
    intro i0 rc
    simp [collectFromAliases]
  | cons a rest ih =>
    intro i0 rc
    simp only [collectFromAliases, List.mem_append]
    constructor
    · rintro (h | h)
      · by_cases hm : jsToLower a = lt ∨ lt.isPrefixOf (jsToLower a)
        · rw [if_pos hm] at h
          simp only [List.mem_singleton] at h
          exact ⟨0, a, by simp, hm, by simpa [Nat.add_zero] using h⟩
        · rw [if_neg hm] at h
          simp at h
      · obtain ⟨j, b, hj, hmb, hrc⟩ := (ih (i0 + 1) rc).mp h
        refine ⟨j + 1, b, by simpa using hj, hmb, ?_⟩
        rw [hrc]
        congr 1
        omega
    · rintro ⟨j, b, hj, hmb, hrc⟩
      cases j with
      | zero =>
        simp only [List.getElem?_cons_zero, Option.some.injEq] at hj
        subst hj
        left
        rw [if_pos hmb]
        simp [hrc]
      | succ j2 =>
        right
        refine (ih (i0 + 1) rc).mpr ⟨j2, b, by simpa using hj, hmb, ?_⟩
        rw [hrc]
        congr 1
        omega

theorem collectMatches_mem (commands : List CommandEntry) (lt : List Char)
    (rc : RankedCandidate) :
    rc ∈ collectMatches commands lt ↔
      ∃ cmd ∈ commands, ∃ j a, cmd.command[j]? = some a ∧
        (jsToLower a = lt ∨ lt.isPrefixOf (jsToLower a)) ∧
        rc = RankedCandidate.mk cmd a j
          (some (if jsToLower a = lt then 0 else 1)) (some a.length) := by
  unfold collectMatches
  rw [List.mem_flatten]
  constructor
  · rintro ⟨l, hl, hrc⟩
    obtain ⟨cmd, hcmd, rfl⟩ := List.mem_map.mp hl
    obtain ⟨j, a, hj, hm, hr⟩ := (collectFromAliases_mem cmd lt cmd.command 0 rc).mp hrc
    exact ⟨cmd, hcmd, j, a, hj, hm, by simpa [Nat.zero_add] using hr⟩
  · rintro ⟨cmd, hcmd, j, a, hj, hm, hr⟩
    refine ⟨collectFromAliases cmd lt cmd.command 0, List.mem_map_of_mem _ hcmd, ?_⟩
    exact (collectFromAliases_mem cmd lt cmd.command 0 rc).mpr
      ⟨j, a, hj, hm, by simpa [Nat.zero_add] using hr⟩

theorem dedupeBySymbol_sublist :
    ∀ (l : List RankedCandidate) (seen : List (List Char)),
      (dedupeBySymbol l seen).Sublist l := by
  intro l
  induction l with
  | nil => intro seen; simp [dedupeBySymbol]
  | cons x rest ih =>
    intro seen
    simp only [dedupeBySymbol]
    by_cases hx : x.command.symbol ∈ seen
    · rw [if_pos hx]
      exact (ih seen).cons x
    · rw [if_neg hx]
      exact (ih _).cons₂ x

theorem dedupeBySymbol_nodup :
    ∀ (l : List RankedCandidate) (seen : List (List Char)),
      ((dedupeBySymbol l seen).map (fun rc => rc.command.symbol)).Nodup ∧
      ∀ rc ∈ dedupeBySymbol l seen, rc.command.symbol ∉ seen := by
  intro l
  induction l with
  | nil => intro seen; simp [dedupeBySymbol]
  | cons x rest ih =>
    intro seen
    simp only [dedupeBySymbol]
    by_cases hx : x.command.symbol ∈ seen
    · rw [if_pos hx]
      exact ih seen
    · rw [if_neg hx]
      obtain ⟨hnd, hout⟩ := ih (x.command.symbol :: seen)
      refine ⟨?_, ?_⟩
      · simp only [List.map_cons, List.nodup_cons]
        refine ⟨?_, hnd⟩
        intro hmem
        obtain ⟨rc, hrc, hsym⟩ := List.mem_map.mp hmem
        exact hout rc hrc (by simp [hsym])
      · intro rc hrc
        rcases List.mem_cons.mp hrc with rfl | hrc2
        · exact hx
        · have := hout rc hrc2
          intro hmem
          exact this (by simp [hmem])

theorem dedupeBySymbol_represents :
    ∀ (l : List RankedCandidate) (seen : List (List Char)),
      l.Pairwise (fun a b => rankLE a b = true) →
      ∀ m ∈ l, m.command.symbol ∉ seen →
        ∃ rc ∈ dedupeBySymbol l seen, rc.command.symbol = m.command.symbol ∧
          rankLE rc m = true := by
  intro l
  induction l with
  | nil => intro seen _ m hm; cases hm
  | cons x rest ih =>
    intro seen hsorted m hm hns
    have hx_le : ∀ b ∈ rest, rankLE x b = true :=
      fun b hb => List.rel_of_pairwise_cons hsorted hb
    simp only [dedupeBySymbol]
    by_cases hx : x.command.symbol ∈ seen
    · rw [if_pos hx]
      rcases List.mem_cons.mp hm with rfl | hm2
      · exact absurd hx hns
      · exact ih seen hsorted.tail m hm2 hns
    · rw [if_neg hx]
      rcases List.mem_cons.mp hm with rfl | hm2
      · exact ⟨m, by simp, rfl, rankLE_refl m⟩
      · by_cases hsym : m.command.symbol = x.command.symbol
        · exact ⟨x, by simp, hsym.symm, hx_le m hm2⟩
        · obtain ⟨rc, hrc, hrcsym, hrcle⟩ :=
            ih (x.command.symbol :: seen) hsorted.tail m hm2
              (by simp [hns, hsym])
          exact ⟨rc, by simp [hrc], hrcsym, hrcle⟩

theorem filterCommands_rank_eq (commands : List CommandEntry) (typed : List Char)
    (h1 : jsTrim typed ≠ []) (h2 : jsTrim (jsToLower typed) ≠ []) :
    filterCommands commands (some typed) =
      dedupeBySymbol
        ((collectMatches commands (jsTrim (jsToLower typed))).mergeSort rankLE) [] := by
  simp only [filterCommands, if_neg h1, if_neg h2]

/-- Claim C5: for a non-empty trimmed prefix, `filterCommands`
case-insensitively collects exactly the aliases that equal or start with
the prefix (quality 0 for exact, 1 for prefix), returns a list sorted by
quality, then alias index, then alias length, keeps at most one candidate
per distinct output symbol, and for every collected match retains a
candidate with the same symbol ranked at least as high. -/
theorem claim5_ranking (commands : List CommandEntry) (typed : List Char)
    (h1 : jsTrim typed ≠ []) (h2 : jsTrim (jsToLower typed) ≠ []) :
    (∀ rc : RankedCandidate,
      rc ∈ collectMatches commands (jsTrim (jsToLower typed)) ↔
        ∃ cmd ∈ commands, ∃ j a, cmd.command[j]? = some a ∧
          (jsToLower a = jsTrim (jsToLower typed) ∨
            (jsTrim (jsToLower typed)).isPrefixOf (jsToLower a)) ∧
          rc = RankedCandidate.mk cmd a j
            (some (if jsToLower a = jsTrim (jsToLower typed) then 0 else 1))
            (some a.length)) ∧
    (filterCommands commands (some typed)).Pairwise (fun a b => rankLE a b = true) ∧
    ((filterCommands commands (some typed)).map (fun rc => rc.command.symbol)).Nodup ∧
    (∀ rc ∈ filterCommands commands (some typed),
      rc ∈ collectMatches commands (jsTrim (jsToLower typed))) ∧
    (∀ m ∈ collectMatches commands (jsTrim (jsToLower typed)),
      ∃ rc ∈ filterCommands commands (some typed),
        rc.command.symbol = m.command.symbol ∧ rankLE rc m = true) := by
  have heq := filterCommands_rank_eq commands typed h1 h2
  have hsorted := List.sorted_mergeSort rankLE_trans
    (fun a b => rankLE_total a b)
    (collectMatches commands (jsTrim (jsToLower typed)))
  refine ⟨collectMatches_mem commands _, ?_, ?_, ?_, ?_⟩
  · rw [heq]
    exact hsorted.sublist (dedupeBySymbol_sublist _ _)
  · rw [heq]
    exact (dedupeBySymbol_nodup _ _).1
  · intro rc hrc
    rw [heq] at hrc
    have hrc2 := (dedupeBySymbol_sublist _ _).subset hrc
    exact List.mem_mergeSort.mp hrc2
  · intro m hm
    rw [heq]
    have hmem : m ∈ (collectMatches commands (jsTrim (jsToLower typed))).mergeSort rankLE :=
      List.mem_mergeSort.mpr hm
    exact dedupeBySymbol_represents _ [] hsorted m hmem (by simp)


/-- Claim C5 (witness): the ranking theorem applied to the dictionary
entries for element-of and integers with typed prefix "in". -/
theorem claim5_witness :
    ((filterCommands [inEntry, intEntry] (some "in".data)).map
      (fun rc => rc.command.symbol)).Nodup :=
  (claim5_ranking [inEntry, intEntry] "in".data (by decide) (by decide)).2.2.1

theorem replaceAllSubAux_fuel (pat repl : List Char) :
    ∀ (f1 f2 : Nat) (s : List Char), s.length ≤ f1 → s.length ≤ f2 →
      replaceAllSubAux pat repl f1 s = replaceAllSubAux pat repl f2 s := by
  intro f1
  induction f1 with
  | zero =>
    intro f2 s h1 h2
    have hs : s = [] := List.eq_nil_of_length_eq_zero (by omega)
    subst hs
    cases f2 <;> rfl
  | succ n ih =>
    intro f2 s h1 h2
    cases s with
    | nil => cases f2 <;> rfl
    | cons c rest =>
      cases f2 with
      | zero => simp at h2
      | succ m =>
        by_cases h : pat ≠ [] ∧ pat.isPrefixOf (c :: rest)
        · have hpl : 1 ≤ pat.length := by
            cases hp : pat with
            | nil => exact absurd hp h.1
            | cons a b => simp [hp]
          conv_lhs => rw [replaceAllSubAux]
          conv_rhs => rw [replaceAllSubAux]
          rw [if_pos h, if_pos h]
          congr 1
          apply ih
          · simp only [List.length_drop, List.length_cons]
            simp only [List.length_cons] at h1
            omega
          · simp only [List.length_drop, List.length_cons]
            simp only [List.length_cons] at h2
            omega
        · conv_lhs => rw [replaceAllSubAux]
          conv_rhs => rw [replaceAllSubAux]
          rw [if_neg h, if_neg h]
          congr 1
          apply ih
          · simp only [List.length_cons] at h1
            omega
          · simp only [List.length_cons] at h2
            omega

theorem replaceAllSubAux_eq (pat repl : List Char) (fuel : Nat) (s : List Char)
    (h : s.length ≤ fuel) :
    replaceAllSubAux pat repl fuel s = replaceAllSub pat repl s :=
  replaceAllSubAux_fuel pat repl fuel s.length s h (Nat.le_refl _)

theorem replaceAllSub_head_match {pat : List Char} (repl X : List Char) (h : pat ≠ []) :
    replaceAllSub pat repl (pat ++ X) = repl ++ replaceAllSub pat repl X := by
  have hpl : 1 ≤ pat.length := by
    cases hp : pat with
    | nil => exact absurd hp h
    | cons a b => simp [hp]
  cases hp : pat with
  | nil => exact absurd hp h
  | cons p ps =>
    show replaceAllSub (p :: ps) repl ((p :: ps) ++ X) = _
    unfold replaceAllSub
    have hcons : (p :: ps) ++ X = p :: (ps ++ X) := rfl
    rw [hcons]
    simp only [List.length_cons]
    conv_lhs => rw [replaceAllSubAux]
    have hpre : (p :: ps).isPrefixOf (p :: (ps ++ X)) := by
      rw [List.isPrefixOf_iff_prefix]
      exact ⟨X, rfl⟩
    rw [if_pos ⟨by simp, hpre⟩]
    have hdrop : (p :: (ps ++ X)).drop (p :: ps).length = X := by
      have : p :: (ps ++ X) = (p :: ps) ++ X := rfl
      rw [this, List.drop_left]
    rw [hdrop]
    congr 1
    apply replaceAllSubAux_eq
    simp only [List.length_append]
    omega

theorem replaceAllSub_cons_skip {pat : List Char} (repl : List Char) {c : Char}
    {X : List Char} (h : pat.isPrefixOf (c :: X) = false) :
    replaceAllSub pat repl (c :: X) = c :: replaceAllSub pat repl X := by
  unfold replaceAllSub
  simp only [List.length_cons]
  conv_lhs => rw [replaceAllSubAux]
  have hcond : ¬ (pat ≠ [] ∧ pat.isPrefixOf (c :: X)) := by
    rintro ⟨-, hp⟩
    rw [h] at hp
    cases hp
  rw [if_neg hcond]

theorem replaceAllSub_skip_block (pat repl : List Char) :
    ∀ (blk X : List Char),
      (∀ k, k < blk.length → pat.isPrefixOf (blk.drop k ++ X) = false) →
      replaceAllSub pat repl (blk ++ X) = blk ++ replaceAllSub pat repl X := by
  intro blk
  induction blk with
  | nil => intro X _; simp
  | cons b blk2 ih =>
    intro X hk
    have h0 := hk 0 (by simp)
    rw [List.drop_zero] at h0
    have step : replaceAllSub pat repl ((b :: blk2) ++ X) =
        b :: replaceAllSub pat repl (blk2 ++ X) := by
      rw [List.cons_append]
      exact replaceAllSub_cons_skip repl (by rw [← List.cons_append]; exact h0)
    rw [step, ih X (fun k hklt => by
      have := hk (k + 1) (by simp only [List.length_cons]; omega)
      simpa using this)]
    rfl


theorem replaceAllChar_append (c : Char) (repl : List Char) :
    ∀ a b : List Char,
      replaceAllChar c repl (a ++ b) = replaceAllChar c repl a ++ replaceAllChar c repl b := by
  intro a
  induction a with
  | nil => intro b; rfl
  | cons x rest ih =>
    intro b
    simp only [List.cons_append, replaceAllChar, List.append_eq, ih, List.append_assoc]

theorem braceEscape_nil : braceEscape [] = [] := rfl

theorem braceEscape_cons (c : Char) (t : List Char) :
    braceEscape (c :: t) = brExpand c ++ braceEscape t := by
  unfold braceEscape brExpand
  by_cases h1 : c = '{'
  · subst h1
    show replaceAllChar '}' rbraceTok (lbraceTok ++ replaceAllChar '{' lbraceTok t) = _
    rw [replaceAllChar_append, replaceAllChar_of_not_mem (by decide)]
    simp
  · show replaceAllChar '}' rbraceTok
        ((if c = '{' then lbraceTok else [c]) ++ replaceAllChar '{' lbraceTok t) = _
    rw [if_neg h1, if_neg h1]
    by_cases h2 : c = '}'
    · subst h2
      rw [replaceAllChar_append]
      show replaceAllChar '}' rbraceTok ['}'] ++ _ = _
      simp [replaceAllChar]
    · rw [replaceAllChar_append]
      show replaceAllChar '}' rbraceTok [c] ++ _ = _
      simp [replaceAllChar, h2]

theorem braceEscape_no_brace :
    ∀ s : List Char, '{' ∉ braceEscape s ∧ '}' ∉ braceEscape s := by
  intro s
  induction s with
  | nil => simp [braceEscape_nil]
  | cons c t ih =>
    rw [braceEscape_cons]
    constructor
    · intro hmem
      rcases List.mem_append.mp hmem with hm | hm
      · unfold brExpand at hm
        by_cases h1 : c = '{'
        · rw [if_pos h1] at hm; revert hm; decide
        · rw [if_neg h1] at hm
          by_cases h2 : c = '}'
          · rw [if_pos h2] at hm; revert hm; decide
          · rw [if_neg h2] at hm
            simp only [List.mem_singleton] at hm
            exact h1 hm.symm
      · exact ih.1 hm
    · intro hmem
      rcases List.mem_append.mp hmem with hm | hm
      · unfold brExpand at hm
        by_cases h1 : c = '{'
        · rw [if_pos h1] at hm; revert hm; decide
        · rw [if_neg h1] at hm
          by_cases h2 : c = '}'
          · rw [if_pos h2] at hm; revert hm; decide
          · rw [if_neg h2] at hm
            simp only [List.mem_singleton] at hm
            exact h2 hm.symm
      · exact ih.2 hm

/-- Shape of the escaped text for inputs over braces and safe characters:
it is empty, starts with a sentinel token, or starts with a safe
character. -/
theorem braceEscape_shape (t : List Char)
    (hsafe : ∀ c ∈ t, c = '{' ∨ c = '}' ∨ safeChar c = true) :
    braceEscape t = [] ∨ (∃ X, braceEscape t = lbraceTok ++ X) ∨
      (∃ X, braceEscape t = rbraceTok ++ X) ∨
      (∃ c X, braceEscape t = c :: X ∧ safeChar c = true) := by
  cases t with
  | nil => exact Or.inl braceEscape_nil
  | cons c rest =>
    rw [braceEscape_cons]
    by_cases h1 : c = '{'
    · subst h1
      exact Or.inr (Or.inl ⟨braceEscape rest, by rw [brExpand]; simp⟩)
    · by_cases h2 : c = '}'
      · subst h2
        refine Or.inr (Or.inr (Or.inl ⟨braceEscape rest, ?_⟩))
        rw [brExpand, if_neg (by decide : ¬ ('}' : Char) = '{'), if_pos rfl]
      · have hs := hsafe c (by simp)
        have hsc : safeChar c = true := by
          rcases hs with h | h | h
          · exact absurd h h1
          · exact absurd h h2
          · exact h
        refine Or.inr (Or.inr (Or.inr ⟨c, braceEscape rest, ?_, hsc⟩))
        rw [brExpand, if_neg h1, if_neg h2]
        rfl

theorem safeChar_spec {c : Char} (h : safeChar c = true) :
    c ≠ '_' ∧ c ≠ 'L' ∧ c ≠ 'B' ∧ c ≠ 'R' ∧ c ≠ 'A' ∧ c ≠ 'C' ∧ c ≠ 'E' := by
  simp only [safeChar, Bool.not_eq_true', Bool.or_eq_false_iff, decide_eq_false_iff_not] at h
  exact ⟨h.1.1.1.1.1.1, h.1.1.1.1.1.2, h.1.1.1.1.2, h.1.1.1.2, h.1.1.2, h.1.2, h.2⟩


theorem midEscape_lb (rest : List Char) :
    midEscape ('{' :: rest) = '\\' :: '{' :: midEscape rest := by
  simp [midEscape]

theorem midEscape_rb (rest : List Char) :
    midEscape ('}' :: rest) = rbraceTok ++ midEscape rest := by
  simp [midEscape]

theorem midEscape_other {c : Char} (rest : List Char) (h1 : c ≠ '{') (h2 : c ≠ '}') :
    midEscape (c :: rest) = c :: midEscape rest := by
  simp [midEscape, h1, h2]

theorem escapeBraces_lb (rest : List Char) :
    escapeBraces ('{' :: rest) = '\\' :: '{' :: escapeBraces rest := by
  simp [escapeBraces]

theorem escapeBraces_rb (rest : List Char) :
    escapeBraces ('}' :: rest) = '\\' :: '}' :: escapeBraces rest := by
  simp [escapeBraces]

theorem escapeBraces_other {c : Char} (rest : List Char) (h1 : c ≠ '{') (h2 : c ≠ '}') :
    escapeBraces (c :: rest) = c :: escapeBraces rest := by
  simp [escapeBraces, h1, h2]

theorem rsl_skip_rb (X : List Char)
    (hX : X = [] ∨ (∃ Y, X = lbraceTok ++ Y) ∨ (∃ Y, X = rbraceTok ++ Y) ∨
      (∃ c Y, X = c :: Y ∧ safeChar c = true)) :
    replaceAllSub lbraceTok ('\\' :: '{' :: []) (rbraceTok ++ X) =
      rbraceTok ++ replaceAllSub lbraceTok ('\\' :: '{' :: []) X := by
  apply replaceAllSub_skip_block
  intro k hk
  have hk12 : k < 12 := by simpa [rbraceTok] using hk
  rcases hX with rfl | ⟨Y, rfl⟩ | ⟨Y, rfl⟩ | ⟨c, Y, rfl, hsc⟩
  · interval_cases k <;> simp [lbraceTok, rbraceTok, List.isPrefixOf]
  · interval_cases k <;> simp [lbraceTok, rbraceTok, List.isPrefixOf]
  · interval_cases k <;> simp [lbraceTok, rbraceTok, List.isPrefixOf]
  · obtain ⟨h1, h2, -⟩ := safeChar_spec hsc
    interval_cases k <;>
      simp [lbraceTok, rbraceTok, List.isPrefixOf, Ne.symm h1, Ne.symm h2]

theorem rsl_braceEscape (t : List Char)
    (hsafe : ∀ c ∈ t, c = '{' ∨ c = '}' ∨ safeChar c = true) :
    replaceAllSub lbraceTok ('\\' :: '{' :: []) (braceEscape t) = midEscape t := by
  induction t with
  | nil => rw [braceEscape_nil]; rfl
  | cons c rest ih =>
    have hrest : ∀ x ∈ rest, x = '{' ∨ x = '}' ∨ safeChar x = true :=
      fun x hx => hsafe x (by simp [hx])
    rw [braceEscape_cons]
    by_cases h1 : c = '{'
    · subst h1
      rw [show brExpand '{' = lbraceTok from by rw [brExpand]; simp]
      rw [replaceAllSub_head_match _ _ (by decide), ih hrest, midEscape_lb]
      rfl
    · by_cases h2 : c = '}'
      · subst h2
        rw [show brExpand '}' = rbraceTok from by
          rw [brExpand, if_neg (by decide : ¬ ('}' : Char) = '{'), if_pos rfl]]
        rw [rsl_skip_rb (braceEscape rest) (braceEscape_shape rest hrest), ih hrest,
          midEscape_rb]
      · have hsc : safeChar c = true := by
          rcases hsafe c (by simp) with h | h | h
          · exact absurd h h1
          · exact absurd h h2
          · exact h
        obtain ⟨hu, -⟩ := safeChar_spec hsc
        rw [show brExpand c = [c] from by rw [brExpand, if_neg h1, if_neg h2]]
        show replaceAllSub lbraceTok ('\\' :: '{' :: []) (c :: braceEscape rest) = _
        rw [replaceAllSub_cons_skip _ (by
          simp [lbraceTok, List.isPrefixOf, Ne.symm hu])]
        rw [ih hrest, midEscape_other rest h1 h2]

theorem rsr_midEscape (t : List Char)
    (hsafe : ∀ c ∈ t, c = '{' ∨ c = '}' ∨ safeChar c = true) :
    replaceAllSub rbraceTok ('\\' :: '}' :: []) (midEscape t) = escapeBraces t := by
  induction t with
  | nil => rfl
  | cons c rest ih =>
    have hrest : ∀ x ∈ rest, x = '{' ∨ x = '}' ∨ safeChar x = true :=
      fun x hx => hsafe x (by simp [hx])
    by_cases h1 : c = '{'
    · subst h1
      rw [midEscape_lb]
      rw [replaceAllSub_cons_skip _ (by simp [rbraceTok, List.isPrefixOf])]
      rw [replaceAllSub_cons_skip _ (by simp [rbraceTok, List.isPrefixOf])]
      rw [ih hrest, escapeBraces_lb]
    · by_cases h2 : c = '}'
      · subst h2
        rw [midEscape_rb]
        rw [replaceAllSub_head_match _ _ (by decide), ih hrest, escapeBraces_rb]
        rfl
      · have hsc : safeChar c = true := by
          rcases hsafe c (by simp) with h | h | h
          · exact absurd h h1
          · exact absurd h h2
          · exact h
        obtain ⟨hu, -⟩ := safeChar_spec hsc
        rw [midEscape_other rest h1 h2]
        rw [replaceAllSub_cons_skip _ (by
          simp [rbraceTok, List.isPrefixOf, Ne.symm hu])]
        rw [ih hrest, escapeBraces_other rest h1 h2]


/-- Claim C6 (counterexample): the sentinel scheme is not collision-free.
Input "}LBRACE{" contains a literal right brace, yet the output
"___RBRACE\{LBRACE___" contains no escaped right brace at all: the first
restore pass matches a left-sentinel occurrence assembled from the right
sentinel's tail and literal input text, destroying the right sentinel. -/
theorem claim6_counterexample :
    parseCommandToLatex 40 ('}' :: 'L' :: 'B' :: 'R' :: 'A' :: 'C' :: 'E' :: '{' :: []) [] [] =
      some ("___RBRACE".data ++ '\\' :: '{' :: "LBRACE___".data) ∧
    containsSub ('\\' :: '}' :: [])
      ("___RBRACE".data ++ '\\' :: '{' :: "LBRACE___".data) = false := by
  constructor
  · simp only [parseCommandToLatex, sortCmds, sortTemplates, buildCmds, buildTemplates,
      List.map_nil, List.flatten_nil, List.mergeSort_nil]
    decide
  · decide

/-- Claim C6 (amended): literal braces are substituted with sentinel
tokens before matching — the processed text contains no brace characters
at all, so braces are never interpreted as placeholder syntax — and for
inputs whose characters are braces or characters foreign to the sentinel
alphabet (no underscore and none of the letters L B R A C E), when nothing
matches at any scan position, each literal brace appears in the output as
an escaped brace and everything else is unchanged (up to comma
post-processing).  Inputs that collide with the sentinel alphabet can
break the round-trip. -/
theorem claim6_amended (cmds : List CommandEntry) (tcs : List TemplateEntry)
    (text : List Char)
    (hsafe : ∀ c ∈ jsTrim text, c = '{' ∨ c = '}' ∨ safeChar c = true)
    (hmatch : ∀ n, n < (braceEscape (jsTrim text)).length →
      (∀ t ∈ buildTemplates tcs,
        matchTemplate ((braceEscape (jsTrim text)).drop n) t.pattern = none) ∧
      (∀ c ∈ buildCmds cmds,
        cmdMatches c ((braceEscape (jsTrim text)).drop n) = false)) :
    (∀ s : List Char, '{' ∉ braceEscape s ∧ '}' ∉ braceEscape s) ∧
    parseCommandToLatex ((braceEscape (jsTrim text)).length + 1) text cmds tcs =
      some (replaceAllChar ',' (',' :: '\\' :: ';' :: []) (escapeBraces (jsTrim text))) := by
  refine ⟨braceEscape_no_brace, ?_⟩
  simp only [parseCommandToLatex]
  by_cases hnil : jsTrim text = []
  · rw [if_pos hnil, hnil]
    rfl
  · rw [if_neg hnil]
    have hpt := parseRecursive_passthrough (sortCmds (buildCmds cmds))
      (sortTemplates (buildTemplates tcs)) (braceEscape (jsTrim text))
      (fun n hn =>
        ⟨firstTemplate_none _ _ (fun t ht => (hmatch n hn).1 t (mem_sortTemplates.mp ht)),
         firstCommand_none _ _ (fun c hc => (hmatch n hn).2 c (mem_sortCmds.mp hc))⟩)
    rw [hpt]
    simp only [postProcess]
    rw [rsl_braceEscape _ hsafe, rsr_midEscape _ hsafe]

/-- Claim C6 (witness): the amended theorem on the concrete input "{x}"
with empty dictionaries. -/
theorem claim6_witness :
    parseCommandToLatex ((braceEscape (jsTrim "{x}".data)).length + 1) "{x}".data [] [] =
      some (replaceAllChar ',' (',' :: '\\' :: ';' :: [])
        (escapeBraces (jsTrim "{x}".data))) :=
  (claim6_amended [] [] "{x}".data (by decide) (by decide)).2

end QED
